import Mathlib

/-
  Verification of the Piotrowski-Kik contact model library
  (shallow embedding of lib/pkmodellib.py).

  The segmentation routine nonzeroRuns is transcribed operation by
  operation from the numpy pipeline
      notzero = concatenate(([0], not_equal(a, 0), [0]))
      absdiff = abs(diff(notzero))
      ranges  = where(absdiff == 1)[0].reshape(-1, 2)
  where `diff` maps l to the list of differences l[n+1] - l[n],
  `where(_ == 1)[0]` lists, in increasing order, the indices at which the
  entry equals 1, and `reshape(-1, 2)` pairs consecutive entries (numpy
  would refuse an odd-length vector; we prove the length is always even).
-/

namespace PKModel

section Runs

variable {α : Type*} [Zero α] [DecidableEq α]

/-- `np.not_equal(a, 0).view(np.int8)`: 1 where the entry is nonzero, else 0. -/
def notZeroMask (a : List α) : List ℤ :=
  a.map (fun x => if x = 0 then 0 else 1)

/-- `np.concatenate(([0], notzero, [0]))`. -/
def paddedMask (a : List α) : List ℤ :=
  0 :: notZeroMask a ++ [0]

/-- `np.abs(np.diff(l))`: absolute differences of consecutive entries. -/
def absdiff (l : List ℤ) : List ℤ :=
  List.zipWith (fun p q => |q - p|) l l.tail

/-- `np.where(l == 1)[0]`: indices of the entries equal to 1, increasing. -/
def whereOne : List ℤ → List ℕ
  | [] => []
  | c :: t => if c = 1 then 0 :: (whereOne t).map (· + 1) else (whereOne t).map (· + 1)

/-- `.reshape(-1, 2)`: consecutive entries paired up. -/
def pairUp : List ℕ → List (ℕ × ℕ)
  | x :: y :: t => (x, y) :: pairUp t
  | _ => []

/-- `nonzeroRuns` from pkmodellib.py. -/
def nonzeroRuns (a : List α) : List (ℕ × ℕ) :=
  pairUp (whereOne (absdiff (paddedMask a)))

/-! Boolean restatement of the mask, used to analyse the pipeline. -/

def boolMask (a : List α) : List Bool :=
  a.map (fun x => decide (x ≠ 0))

def boolInt (b : List Bool) : List ℤ :=
  b.map (fun c => if c then 1 else 0)

/-- Indices at which the padded 0/1 mask changes value, scanning a list of
booleans with the previous value carried along (the leading pad is the
initial `prev := false`, the trailing pad is the base case). -/
def bdryB : Bool → List Bool → List ℕ
  | prev, [] => if prev then [0] else []
  | prev, c :: t =>
      if c = prev then (bdryB c t).map (· + 1) else 0 :: (bdryB c t).map (· + 1)

def shiftRuns (k : ℕ) (rs : List (ℕ × ℕ)) : List (ℕ × ℕ) :=
  rs.map (fun r => (r.1 + k, r.2 + k))

/-- Reference description of the maximal runs of `true` in a boolean list,
as half-open index ranges. -/
def runsB : List Bool → List (ℕ × ℕ)
  | [] => []
  | false :: t => shiftRuns 1 (runsB t)
  | true :: t =>
      (0, (t.takeWhile (· = true)).length + 1) ::
        shiftRuns ((t.takeWhile (· = true)).length + 1)
          (runsB (t.drop (t.takeWhile (· = true)).length))
termination_by l => l.length
decreasing_by
  · simp
  · simp [List.length_drop]; omega

lemma notZeroMask_eq_boolInt (a : List α) :
    notZeroMask a = boolInt (boolMask a) := by
  induction a with
  | nil => rfl
  | cons x t ih =>
      have hx : (if x = 0 then (0:ℤ) else 1) = (if decide (x ≠ 0) then (1:ℤ) else 0) := by
        by_cases h : x = 0 <;> simp [h]
      simp only [notZeroMask, boolInt, boolMask, List.map_cons] at ih ⊢
      rw [hx, ih]

lemma absdiff_cons₂ (x y : ℤ) (t : List ℤ) :
    absdiff (x :: y :: t) = |y - x| :: absdiff (y :: t) := rfl

lemma whereOne_absdiff_pad (b : List Bool) :
    ∀ prev : Bool,
      whereOne (absdiff ((if prev then 1 else 0) :: boolInt b ++ [0])) = bdryB prev b := by
  induction b with
  | nil =>
      intro prev
      cases prev <;> simp [absdiff, whereOne, bdryB]
  | cons c t ih =>
      intro prev
      have h1 : (if prev then (1:ℤ) else 0) :: boolInt (c :: t) ++ [0]
          = (if prev then (1:ℤ) else 0) :: (if c then (1:ℤ) else 0) :: (boolInt t ++ [0]) := by
        simp [boolInt]
      rw [h1, absdiff_cons₂]
      have hF : whereOne (absdiff ((0:ℤ) :: boolInt t ++ [0])) = bdryB false t := ih false
      have hT : whereOne (absdiff ((1:ℤ) :: boolInt t ++ [0])) = bdryB true t := ih true
      cases prev <;> cases c <;> simp [whereOne, bdryB] <;>
        first
          | exact congrArg (List.map (· + 1)) hF
          | exact congrArg (List.map (· + 1)) hT

lemma nonzeroRuns_eq_pairUp_bdry (a : List α) :
    nonzeroRuns a = pairUp (bdryB false (boolMask a)) := by
  have h := whereOne_absdiff_pad (boolMask a) false
  simp only [if_false] at h
  simp only [nonzeroRuns, paddedMask, notZeroMask_eq_boolInt]
  exact congrArg pairUp h

lemma pairUp_cons₂ (x y : ℕ) (t : List ℕ) :
    pairUp (x :: y :: t) = (x, y) :: pairUp t := rfl

lemma shiftRuns_cons (k : ℕ) (r : ℕ × ℕ) (rs : List (ℕ × ℕ)) :
    shiftRuns k (r :: rs) = (r.1 + k, r.2 + k) :: shiftRuns k rs := rfl

lemma pairUp_map_add (k : ℕ) : ∀ l : List ℕ, pairUp (l.map (· + k)) = shiftRuns k (pairUp l)
  | [] => rfl
  | [_] => rfl
  | x :: y :: t => by
      simp only [List.map_cons, pairUp_cons₂, shiftRuns_cons]
      rw [pairUp_map_add k t]

lemma bdryB_true_struct : ∀ t : List Bool,
    bdryB true t = (t.takeWhile (· = true)).length ::
      (bdryB false (t.drop (t.takeWhile (· = true)).length)).map
        (· + (t.takeWhile (· = true)).length) := by
  intro t
  induction t with
  | nil => simp [bdryB]
  | cons c s ih =>
      cases c with
      | false => simp [bdryB, List.takeWhile]
      | true =>
          have hTW : ((true :: s).takeWhile (· = true)).length
              = (s.takeWhile (· = true)).length + 1 := by
            simp [List.takeWhile_cons]
          have hDR : (true :: s).drop ((s.takeWhile (· = true)).length + 1)
              = s.drop (s.takeWhile (· = true)).length := by
            simp [List.drop_succ_cons]
          rw [show bdryB true (true :: s) = (bdryB true s).map (· + 1) from by simp [bdryB]]
          rw [ih, hTW, hDR, List.map_cons, List.map_map]
          rfl

lemma pairUp_bdryB : ∀ b : List Bool, pairUp (bdryB false b) = runsB b
  | [] => by simp [runsB, bdryB, pairUp]
  | false :: t => by
      rw [show bdryB false (false :: t) = (bdryB false t).map (· + 1) from by simp [bdryB]]
      rw [pairUp_map_add, pairUp_bdryB t]
      simp [runsB]
  | true :: t => by
      rw [show bdryB false (true :: t) = 0 :: (bdryB true t).map (· + 1) from by simp [bdryB]]
      rw [bdryB_true_struct t, List.map_cons, List.map_map]
      have hc : ∀ x : ℕ, ((· + 1) ∘ (· + (t.takeWhile (· = true)).length)) x
          = x + ((t.takeWhile (· = true)).length + 1) := by
        intro x; simp [Function.comp]; omega
      rw [List.map_congr_left (fun x _ => hc x), pairUp_cons₂, pairUp_map_add,
        pairUp_bdryB (t.drop (t.takeWhile (· = true)).length)]
      simp [runsB]
termination_by b => b.length
decreasing_by
  · simp
  · simp [List.length_drop]; omega

lemma nonzeroRuns_eq_runsB (a : List α) : nonzeroRuns a = runsB (boolMask a) := by
  rw [nonzeroRuns_eq_pairUp_bdry, pairUp_bdryB]

lemma mem_shiftRuns {k : ℕ} {r : ℕ × ℕ} {rs : List (ℕ × ℕ)} :
    r ∈ shiftRuns k rs ↔ ∃ s ∈ rs, r = (s.1 + k, s.2 + k) := by
  simp only [shiftRuns, List.mem_map]
  constructor
  · rintro ⟨s, hs, h⟩; exact ⟨s, hs, h.symm⟩
  · rintro ⟨s, hs, h⟩; exact ⟨s, hs, h.symm⟩

lemma takeWhile_true_getD (t : List Bool) :
    ∀ j, j < (t.takeWhile (· = true)).length → t.getD j false = true := by
  induction t with
  | nil => intro j h; simp [List.takeWhile] at h
  | cons c s ih =>
      intro j h
      cases c with
      | false => simp [List.takeWhile_cons] at h
      | true =>
          cases j with
          | zero => rfl
          | succ j =>
              simp only [List.takeWhile_cons, decide_eq_true_eq] at h
              simp only [if_true, List.length_cons, Nat.succ_lt_succ_iff] at h
              simpa [List.getD_cons_succ] using ih j (by simpa using h)

lemma takeWhile_true_end (t : List Bool) :
    (t.takeWhile (· = true)).length < t.length →
      t.getD (t.takeWhile (· = true)).length false = false := by
  induction t with
  | nil => intro h; simp at h
  | cons c s ih =>
      intro h
      cases c with
      | false => simp [List.takeWhile_cons]
      | true =>
          have h1 : ((true :: s).takeWhile (· = true)).length
              = (s.takeWhile (· = true)).length + 1 := by simp [List.takeWhile_cons]
          rw [h1]
          rw [h1, List.length_cons] at h
          simpa [List.getD_cons_succ] using ih (by omega)

lemma takeWhile_true_length_le (t : List Bool) :
    (t.takeWhile (· = true)).length ≤ t.length :=
  (List.takeWhile_sublist _).length_le

lemma getD_drop (l : List Bool) (n m : ℕ) :
    (l.drop n).getD m false = l.getD (n + m) false := by
  simp [List.getD_eq_getElem?_getD, List.getElem?_drop]

lemma runsB_bounds : ∀ b : List Bool, ∀ r ∈ runsB b, r.1 < r.2 ∧ r.2 ≤ b.length
  | [] => by simp [runsB]
  | false :: t => by
      intro r hr
      rw [show runsB (false :: t) = shiftRuns 1 (runsB t) from by simp [runsB]] at hr
      rcases mem_shiftRuns.1 hr with ⟨s, hs, rfl⟩
      have := runsB_bounds t s hs
      simp only [List.length_cons]
      omega
  | true :: t => by
      intro r hr
      rw [show runsB (true :: t)
          = (0, (t.takeWhile (· = true)).length + 1) ::
              shiftRuns ((t.takeWhile (· = true)).length + 1)
                (runsB (t.drop (t.takeWhile (· = true)).length)) from by simp [runsB]] at hr
      rcases List.mem_cons.1 hr with h | h
      · subst h
        have := takeWhile_true_length_le t
        simp only [List.length_cons]
        omega
      · rcases mem_shiftRuns.1 h with ⟨s, hs, rfl⟩
        have hb := runsB_bounds (t.drop (t.takeWhile (· = true)).length) s hs
        have hd : (t.drop (t.takeWhile (· = true)).length).length
            = t.length - (t.takeWhile (· = true)).length := by simp
        have := takeWhile_true_length_le t
        simp only [List.length_cons]
        omega
termination_by b => b.length
decreasing_by
  · simp
  · simp [List.length_drop]; omega

lemma runsB_cover : ∀ b : List Bool, ∀ i : ℕ,
    (∃ r ∈ runsB b, r.1 ≤ i ∧ i < r.2) ↔ b.getD i false = true
  | [] => by intro i; simp [runsB]
  | false :: t => by
      intro i
      rw [show runsB (false :: t) = shiftRuns 1 (runsB t) from by simp [runsB]]
      cases i with
      | zero =>
          simp only [List.getD_cons_zero]
          constructor
          · rintro ⟨r, hr, h1, h2⟩
            rcases mem_shiftRuns.1 hr with ⟨s, _, rfl⟩
            omega
          · intro h; exact absurd h (by simp)
      | succ j =>
          rw [List.getD_cons_succ, ← runsB_cover t j]
          constructor
          · rintro ⟨r, hr, h1, h2⟩
            rcases mem_shiftRuns.1 hr with ⟨s, hs, rfl⟩
            exact ⟨s, hs, by omega, by omega⟩
          · rintro ⟨s, hs, h1, h2⟩
            exact ⟨(s.1 + 1, s.2 + 1), mem_shiftRuns.2 ⟨s, hs, rfl⟩, by omega, by omega⟩
  | true :: t => by
      intro i
      set k := (t.takeWhile (· = true)).length with hk
      rw [show runsB (true :: t)
          = (0, k + 1) :: shiftRuns (k + 1) (runsB (t.drop k)) from by simp [runsB, hk]]
      by_cases hik : i ≤ k
      · constructor
        · intro _
          cases i with
          | zero => rfl
          | succ j =>
              rw [List.getD_cons_succ]
              exact takeWhile_true_getD t j (by omega)
        · intro _
          exact ⟨(0, k + 1), List.mem_cons_self _ _, by omega, by omega⟩
      · have hik' : k + 1 ≤ i := by omega
        obtain ⟨j, rfl⟩ : ∃ j, i = j + 1 := ⟨i - 1, by omega⟩
        rw [List.getD_cons_succ]
        have hjk : j = k + (j - k) := by omega
        rw [hjk, ← getD_drop, ← runsB_cover (t.drop k) (j - k)]
        constructor
        · rintro ⟨r, hr, h1, h2⟩
          rcases List.mem_cons.1 hr with h | h
          · subst h; omega
          · rcases mem_shiftRuns.1 h with ⟨s, hs, rfl⟩
            exact ⟨s, hs, by omega, by omega⟩
        · rintro ⟨s, hs, h1, h2⟩
          refine ⟨(s.1 + (k + 1), s.2 + (k + 1)),
            List.mem_cons_of_mem _ (mem_shiftRuns.2 ⟨s, hs, rfl⟩), by omega, by omega⟩
termination_by b => b.length
decreasing_by
  · simp
  · simp [List.length_drop]; omega

lemma runsB_start_pos (l : List Bool) (hl : l.getD 0 false = false) :
    ∀ r ∈ runsB l, 1 ≤ r.1 := by
  intro r hr
  cases l with
  | nil => simp [runsB] at hr
  | cons c t =>
      cases c with
      | false =>
          rw [show runsB (false :: t) = shiftRuns 1 (runsB t) from by simp [runsB]] at hr
          rcases mem_shiftRuns.1 hr with ⟨s, _, rfl⟩
          omega
      | true => simp at hl

lemma chain'_shiftRuns (k : ℕ) (rs : List (ℕ × ℕ))
    (h : List.Chain' (fun r s : ℕ × ℕ => r.2 < s.1) rs) :
    List.Chain' (fun r s : ℕ × ℕ => r.2 < s.1) (shiftRuns k rs) := by
  rw [shiftRuns, List.chain'_map]
  exact h.imp (fun a b hab => by simpa using by omega)

lemma runsB_chain : ∀ b : List Bool,
    List.Chain' (fun r s : ℕ × ℕ => r.2 < s.1) (runsB b)
  | [] => by simp [runsB]
  | false :: t => by
      rw [show runsB (false :: t) = shiftRuns 1 (runsB t) from by simp [runsB]]
      exact chain'_shiftRuns 1 _ (runsB_chain t)
  | true :: t => by
      set k := (t.takeWhile (· = true)).length with hk
      rw [show runsB (true :: t)
          = (0, k + 1) :: shiftRuns (k + 1) (runsB (t.drop k)) from by simp [runsB, hk]]
      apply List.chain'_cons'.2
      constructor
      · intro y hy
        have hmem : y ∈ shiftRuns (k + 1) (runsB (t.drop k)) := by
          cases hh : shiftRuns (k + 1) (runsB (t.drop k)) with
          | nil => simp [hh] at hy
          | cons z zs => simp [hh] at hy; subst hy; simp [hh]
        rcases mem_shiftRuns.1 hmem with ⟨s, hs, rfl⟩
        have hpos : 1 ≤ s.1 := by
          apply runsB_start_pos (t.drop k) _ s hs
          by_cases hlt : k < t.length
          · rw [getD_drop, Nat.add_zero]
            exact takeWhile_true_end t (by omega)
          · rw [List.drop_eq_nil_of_le (by omega)]
            rfl
        simp only
        omega
      · exact chain'_shiftRuns _ _ (runsB_chain (t.drop k))
termination_by b => b.length
decreasing_by
  · simp
  · simp [List.length_drop]; omega

lemma runsB_all_false : ∀ b : List Bool, (∀ c ∈ b, c = false) → runsB b = []
  | [] => by intro _; simp [runsB]
  | false :: t => by
      intro h
      rw [show runsB (false :: t) = shiftRuns 1 (runsB t) from by simp [runsB]]
      rw [runsB_all_false t (fun c hc => h c (List.mem_cons_of_mem _ hc))]
      rfl
  | true :: t => by
      intro h
      exact absurd (h true (List.mem_cons_self _ _)) (by simp)

lemma takeWhile_true_all (t : List Bool) (h : ∀ c ∈ t, c = true) :
    t.takeWhile (· = true) = t := by
  induction t with
  | nil => rfl
  | cons c s ih =>
      have hc : c = true := h c (List.mem_cons_self _ _)
      subst hc
      simp only [List.takeWhile_cons, decide_true_eq_true, if_true]
      rw [ih (fun c hc => h c (List.mem_cons_of_mem _ hc))]

lemma runsB_all_true (b : List Bool) (hne : b ≠ []) (h : ∀ c ∈ b, c = true) :
    runsB b = [(0, b.length)] := by
  cases b with
  | nil => exact absurd rfl hne
  | cons c t =>
      have hc : c = true := h c (List.mem_cons_self _ _)
      subst hc
      have ht : t.takeWhile (· = true) = t :=
        takeWhile_true_all t (fun c hc => h c (List.mem_cons_of_mem _ hc))
      rw [show runsB (true :: t)
          = (0, (t.takeWhile (· = true)).length + 1) ::
              shiftRuns ((t.takeWhile (· = true)).length + 1)
                (runsB (t.drop (t.takeWhile (· = true)).length)) from by simp [runsB]]
      rw [ht, List.drop_length]
      simp [runsB, shiftRuns]

lemma boolMask_length (a : List α) : (boolMask a).length = a.length := by
  simp [boolMask]

lemma boolMask_getD (a : List α) (i : ℕ) :
    (boolMask a).getD i false = decide (a.getD i 0 ≠ 0) := by
  simp only [boolMask, List.getD_eq_getElem?_getD]
  rw [List.getElem?_map]
  cases h : a[i]? with
  | none => simp
  | some x => simp

lemma nonzeroRuns_bounds (a : List α) :
    ∀ r ∈ nonzeroRuns a, r.1 < r.2 ∧ r.2 ≤ a.length := by
  rw [nonzeroRuns_eq_runsB]
  intro r hr
  have := runsB_bounds (boolMask a) r hr
  rwa [boolMask_length] at this

lemma nonzeroRuns_cover (a : List α) (i : ℕ) :
    (∃ r ∈ nonzeroRuns a, r.1 ≤ i ∧ i < r.2) ↔ a.getD i 0 ≠ 0 := by
  rw [nonzeroRuns_eq_runsB, runsB_cover (boolMask a) i, boolMask_getD]
  simp

lemma nonzeroRuns_chain (a : List α) :
    List.Chain' (fun r s : ℕ × ℕ => r.2 < s.1) (nonzeroRuns a) := by
  rw [nonzeroRuns_eq_runsB]
  exact runsB_chain (boolMask a)

lemma chain'_starts {l : List (ℕ × ℕ)} (hb : ∀ r ∈ l, r.1 < r.2)
    (hc : List.Chain' (fun r s : ℕ × ℕ => r.2 < s.1) l) :
    List.Chain' (fun r s : ℕ × ℕ => r.1 < s.1) l := by
  induction l with
  | nil => simp
  | cons x t ih =>
      rcases t with _ | ⟨y, s⟩
      · simp
      · rw [List.chain'_cons] at hc ⊢
        refine ⟨?_, ih (fun r hr => hb r (List.mem_cons_of_mem _ hr)) hc.2⟩
        have hx := hb x (List.mem_cons_self _ _)
        omega

lemma nonzeroRuns_chain_starts (a : List α) :
    List.Chain' (fun r s : ℕ × ℕ => r.1 < s.1) (nonzeroRuns a) :=
  chain'_starts (fun r hr => (nonzeroRuns_bounds a r hr).1) (nonzeroRuns_chain a)

lemma nonzeroRuns_all_zero (a : List α) (h : ∀ x ∈ a, x = 0) :
    nonzeroRuns a = [] := by
  rw [nonzeroRuns_eq_runsB]
  apply runsB_all_false
  intro c hc
  rcases List.mem_map.1 hc with ⟨x, hx, rfl⟩
  simp [h x hx]

lemma nonzeroRuns_all_nonzero (a : List α) (hne : a ≠ []) (h : ∀ x ∈ a, x ≠ 0) :
    nonzeroRuns a = [(0, a.length)] := by
  rw [nonzeroRuns_eq_runsB]
  rw [show a.length = (boolMask a).length from (boolMask_length a).symm]
  apply runsB_all_true
  · simp [boolMask, hne]
  · intro c hc
    rcases List.mem_map.1 hc with ⟨x, hx, rfl⟩
    simp [h x hx]

end Runs

section Profiles

/-
  A profile is the list of its (y, z) coordinate pairs (the rows of the
  2d numpy array).  Fallible numpy operations are embedded into Option:
  `none` is an uncaught Python exception.

  `subBroadcast` embeds numpy's elementwise subtraction of two 1d arrays:
  it broadcasts when either operand has length one and raises (none)
  otherwise when the lengths disagree.

  `min?` of the empty list is none, matching the ValueError raised by
  Python's min() on an empty sequence.
-/

variable {α : Type*} [LinearOrderedField α]

def subBroadcast (u v : List α) : Option (List α) :=
  if u.length = v.length then some (List.zipWith (fun x y => x - y) u v)
  else if u.length = 1 then some (v.map (fun y => u.headD 0 - y))
  else if v.length = 1 then some (u.map (fun x => x - v.headD 0))
  else none

/-- `separationOfProfiles` from pkmodellib.py:
`sep = wheel[:,1] - rail[:,1]; return sep - min(sep)`. -/
def separationOfProfiles (wheel rail : List (α × α)) : Option (List α) :=
  match subBroadcast (wheel.map Prod.snd) (rail.map Prod.snd) with
  | none => none
  | some sep =>
      match sep.min? with
      | none => none
      | some m => some (sep.map (fun s => s - m))

/-- `interpenetration` from pkmodellib.py: `interp_array = delta0 - sep`,
then each entry is kept if positive and zeroed otherwise. -/
def interpenetration (wheel rail : List (α × α)) (delta0 : α) : Option (List α) :=
  match separationOfProfiles wheel rail with
  | none => none
  | some sep => some (sep.map (fun s => if delta0 - s > 0 then delta0 - s else 0))

/-
  `equalPoints` resamples profile1 at the y coordinates of profile2 through
  scipy.interpolate.interp1d(kind='linear') with its default settings.
  Modelled from the library's documented behaviour: the data points are
  sorted by y (assume_sorted=False), at least two data points are required,
  evaluation outside [min y, max y] raises a ValueError (bounds_error), and
  evaluation inside is piecewise-linear between the two bracketing points.
-/

def insertByFst (p : α × α) : List (α × α) → List (α × α)
  | [] => [p]
  | q :: t => if p.1 ≤ q.1 then p :: q :: t else q :: insertByFst p t

def sortByFst (l : List (α × α)) : List (α × α) := l.foldr insertByFst []

def evalSeg : List (α × α) → α → α
  | [], _ => 0
  | [p], _ => p.2
  | p :: q :: t, x =>
      if x ≤ q.1 then p.2 + (x - p.1) * (q.2 - p.2) / (q.1 - p.1) else evalSeg (q :: t) x

/-- `equalPoints` from pkmodellib.py: interpolate profile1 at profile2's
y coordinates and pair them with those coordinates. -/
def equalPoints (profile1 profile2 : List (α × α)) : Option (List (α × α)) :=
  if profile1.length < 2 then none
  else if profile2.all (fun q =>
      decide ((profile1.map Prod.fst).min?.getD 0 ≤ q.1) &&
      decide (q.1 ≤ (profile1.map Prod.fst).max?.getD 0))
  then some (profile2.map (fun q => (q.1, evalSeg (sortByFst profile1) q.1)))
  else none

/-! Facts about `List.min?` over a linear order, proved from its `foldl`
definition. -/

lemma foldl_min_le_init : ∀ (l : List α) (a : α), List.foldl min a l ≤ a
  | [], a => le_refl a
  | b :: t, a => le_trans (foldl_min_le_init t (min a b)) (min_le_left a b)

lemma foldl_min_le_mem : ∀ (l : List α) (a x : α), x ∈ l → List.foldl min a l ≤ x
  | [], _, x, hx => absurd hx (List.not_mem_nil x)
  | b :: t, a, x, hx => by
      rcases List.mem_cons.1 hx with rfl | hx
      · exact le_trans (foldl_min_le_init t (min a x)) (min_le_right a x)
      · exact foldl_min_le_mem t (min a b) x hx

lemma min?_le_mem (l : List α) (m : α) (h : l.min? = some m) {x : α} (hx : x ∈ l) :
    m ≤ x := by
  cases l with
  | nil => simp [List.min?] at h
  | cons a t =>
      rw [List.min?_cons', Option.some.injEq] at h
      subst h
      rcases List.mem_cons.1 hx with rfl | hx
      · exact foldl_min_le_init t x
      · exact foldl_min_le_mem t a x hx

lemma min?_of_ne_nil (l : List α) (h : l ≠ []) : ∃ m, l.min? = some m := by
  cases l with
  | nil => exact absurd rfl h
  | cons a t => exact ⟨t.foldl min a, List.min?_cons'⟩

lemma foldl_min_map_sub (c : α) : ∀ (l : List α) (a : α),
    List.foldl min (a - c) (l.map (fun x => x - c)) = List.foldl min a l - c
  | [], _ => rfl
  | b :: t, a => by
      simp only [List.map_cons, List.foldl_cons]
      rw [show min (a - c) (b - c) = min a b - c from min_sub_sub_right a b c]
      exact foldl_min_map_sub c t (min a b)

lemma min?_map_sub (l : List α) (c : α) :
    (l.map (fun x => x - c)).min? = l.min?.map (fun x => x - c) := by
  cases l with
  | nil => rfl
  | cons a t =>
      rw [List.map_cons, List.min?_cons', List.min?_cons']
      simp only [Option.map_some']
      rw [foldl_min_map_sub]

/-- The raw separation computed by the code equals the claim's
`top.z[i] - bottom.z[i]` array. -/
lemma rawSep_eq (wheel rail : List (α × α)) :
    List.zipWith (fun x y => x - y) (wheel.map Prod.snd) (rail.map Prod.snd)
      = List.zipWith (fun w r : α × α => w.2 - r.2) wheel rail := by
  rw [List.zipWith_map]

/-- On equal-length nonempty profiles the separation succeeds and equals the
raw separation minus its minimum. -/
lemma separation_eq (wheel rail : List (α × α))
    (hlen : wheel.length = rail.length) (hne : wheel ≠ []) :
    ∃ m, (List.zipWith (fun w r : α × α => w.2 - r.2) wheel rail).min? = some m ∧
      separationOfProfiles wheel rail
        = some ((List.zipWith (fun w r : α × α => w.2 - r.2) wheel rail).map
            (fun s => s - m)) := by
  set raw := List.zipWith (fun w r : α × α => w.2 - r.2) wheel rail with hraw
  have hsub : subBroadcast (wheel.map Prod.snd) (rail.map Prod.snd) = some raw := by
    rw [subBroadcast, if_pos (by simp [hlen])]
    rw [rawSep_eq]
  have hrawlen : raw.length = wheel.length := by
    rw [hraw, List.length_zipWith, hlen, min_self]
  have hrawne : raw ≠ [] := by
    intro h0
    apply hne
    have : wheel.length = 0 := by rw [← hrawlen, h0]; rfl
    exact List.length_eq_zero.1 this
  obtain ⟨m, hm⟩ := min?_of_ne_nil raw hrawne
  refine ⟨m, hm, ?_⟩
  rw [separationOfProfiles, hsub]
  show (match raw.min? with
    | none => none
    | some mm => some (List.map (fun s => s - mm) raw)) = some (List.map (fun s => s - m) raw)
  rw [hm]

end Profiles

noncomputable section Pressure

open MeasureTheory intervalIntegral Real

/-
  `maxPressure` from pkmodellib.py.  The adaptive quadrature calls
  `scipy.integrate.quad(f, -x_f, x_f)` are embedded as the definite
  integrals they approximate; the float scalars become real numbers.
-/

/-- `x_front_edge`: `sqrt(2 * radius * g_array[ind])`. -/
def xFrontEdge (radius g : ℝ) : ℝ := Real.sqrt (2 * radius * g)

/-- `quad` of the first integrand `f1` over `[-x_f, x_f]`. -/
def quadF1 (radius g y : ℝ) : ℝ :=
  ∫ x in (-(xFrontEdge radius g))..(xFrontEdge radius g),
    Real.sqrt (xFrontEdge radius g ^ 2 - x * x) / Real.sqrt (x * x + y * y + 1e-10)

/-- `quad` of the second integrand `f2` over `[-x_f, x_f]`. -/
def quadF2 (radius g : ℝ) : ℝ :=
  ∫ x in (-(xFrontEdge radius g))..(xFrontEdge radius g),
    Real.sqrt (xFrontEdge radius g ^ 2 - x * x)

/-- Accumulated `int2_f1` over the nodes `ind_l, ..., ind_u - 1` of a patch. -/
def patchS1 (yArr gArr : List ℝ) (radius : ℝ) (r : ℕ × ℕ) : ℝ :=
  ((List.range' r.1 (r.2 - r.1)).map
    (fun ind => quadF1 radius (gArr.getD ind 0) (yArr.getD ind 0))).sum

/-- Accumulated `int2_f2` over the nodes of a patch. -/
def patchS2 (gArr : List ℝ) (radius : ℝ) (r : ℕ × ℕ) : ℝ :=
  ((List.range' r.1 (r.2 - r.1)).map (fun ind => quadF2 radius (gArr.getD ind 0))).sum

/-- Body of the per-patch loop:
`load = coef / int2_f1 * int2_f2; pmax = load * sqrt(2*radius*delta0) / int2_f2`. -/
def patchPmax (yArr gArr : List ℝ) (radius E nu delta delta0 : ℝ) (r : ℕ × ℕ) : ℝ :=
  (0.5 * Real.pi * E * delta / (1 - nu * nu) / patchS1 yArr gArr radius r
      * patchS2 gArr radius r)
    * Real.sqrt (2 * radius * delta0) / patchS2 gArr radius r

/-- `maxPressure` from pkmodellib.py: one pmax per region of `nonzeroRuns`. -/
def maxPressure (wheel : List (ℝ × ℝ)) (gArr : List ℝ) (radius E nu delta delta0 : ℝ) :
    List ℝ :=
  (nonzeroRuns gArr).map (patchPmax (wheel.map Prod.fst) gArr radius E nu delta delta0)

/-
  Spec-side transcription of the peak-pressure formula, written from the
  words of the specification for the refinement comparison:
  a(i) = sqrt(2*R*g(i)),
  I1(i) = integral of sqrt(a(i)^2 - x^2) / sqrt(x^2 + y(i)^2 + 1e-10),
  I2(i) = integral of sqrt(a(i)^2 - x^2), both over [-a(i), a(i)],
  S1, S2 their sums over the patch nodes,
  coef = 0.5*pi*E*delta / (1 - nu^2), load = coef * S2 / S1,
  pmax = load * sqrt(2*R*delta0) / S2.
-/

def specA (R gi : ℝ) : ℝ := Real.sqrt (2 * R * gi)

def specI1 (R yi gi : ℝ) : ℝ :=
  ∫ x in (-(specA R gi))..(specA R gi),
    Real.sqrt (specA R gi ^ 2 - x ^ 2) / Real.sqrt (x ^ 2 + yi ^ 2 + 1e-10)

def specI2 (R gi : ℝ) : ℝ :=
  ∫ x in (-(specA R gi))..(specA R gi), Real.sqrt (specA R gi ^ 2 - x ^ 2)

def specS1 (wheel : List (ℝ × ℝ)) (g : List ℝ) (R : ℝ) (r : ℕ × ℕ) : ℝ :=
  ((List.range' r.1 (r.2 - r.1)).map
    (fun i => specI1 R ((wheel.map Prod.fst).getD i 0) (g.getD i 0))).sum

def specS2 (g : List ℝ) (R : ℝ) (r : ℕ × ℕ) : ℝ :=
  ((List.range' r.1 (r.2 - r.1)).map (fun i => specI2 R (g.getD i 0))).sum

def specCoef (E nu delta : ℝ) : ℝ := 0.5 * Real.pi * E * delta / (1 - nu ^ 2)

def specLoad (wheel : List (ℝ × ℝ)) (g : List ℝ) (R E nu delta : ℝ) (r : ℕ × ℕ) : ℝ :=
  specCoef E nu delta * specS2 g R r / specS1 wheel g R r

def specPmax (wheel : List (ℝ × ℝ)) (g : List ℝ) (R E nu delta delta0 : ℝ)
    (r : ℕ × ℕ) : ℝ :=
  specLoad wheel g R E nu delta r * Real.sqrt (2 * R * delta0) / specS2 g R r

lemma quadF1_eq_specI1 (R g y : ℝ) : quadF1 R g y = specI1 R y g := by
  unfold quadF1 specI1 xFrontEdge specA
  congr 1
  funext x
  ring_nf

lemma quadF2_eq_specI2 (R g : ℝ) : quadF2 R g = specI2 R g := by
  unfold quadF2 specI2 xFrontEdge specA
  congr 1
  funext x
  ring_nf

lemma patchS1_eq_specS1 (wheel : List (ℝ × ℝ)) (g : List ℝ) (R : ℝ) (r : ℕ × ℕ) :
    patchS1 (wheel.map Prod.fst) g R r = specS1 wheel g R r := by
  unfold patchS1 specS1
  congr 1
  apply List.map_congr_left
  intro i _
  rw [quadF1_eq_specI1]

lemma patchS2_eq_specS2 (g : List ℝ) (R : ℝ) (r : ℕ × ℕ) :
    patchS2 g R r = specS2 g R r := by
  unfold patchS2 specS2
  congr 1
  apply List.map_congr_left
  intro i _
  rw [quadF2_eq_specI2]

lemma patchPmax_eq_specPmax (wheel : List (ℝ × ℝ)) (g : List ℝ)
    (R E nu delta delta0 : ℝ) (r : ℕ × ℕ) :
    patchPmax (wheel.map Prod.fst) g R E nu delta delta0 r
      = specPmax wheel g R E nu delta delta0 r := by
  unfold patchPmax specPmax specLoad specCoef
  rw [patchS1_eq_specS1, patchS2_eq_specS2]
  rw [show (1 - nu * nu) = (1 - nu ^ 2) by ring]
  rw [div_mul_eq_mul_div]

/-! Evaluation of the smooth integral and bounds for the near-singular one. -/

lemma integral_semicircle (a : ℝ) (ha : 0 ≤ a) :
    (∫ x in (-a)..a, Real.sqrt (a ^ 2 - x * x)) = Real.pi * a ^ 2 / 2 := by
  rcases eq_or_lt_of_le ha with h0 | hpos
  · rw [← h0]
    simp
  · have hne : a ≠ 0 := ne_of_gt hpos
    have hkey : ∀ x : ℝ, Real.sqrt (a ^ 2 - x * x)
        = a * Real.sqrt (1 - (a⁻¹ * x) ^ 2) := by
      intro x
      rw [show a * Real.sqrt (1 - (a⁻¹ * x) ^ 2)
          = Real.sqrt (a ^ 2) * Real.sqrt (1 - (a⁻¹ * x) ^ 2) by
        rw [Real.sqrt_sq ha]]
      rw [← Real.sqrt_mul (sq_nonneg a)]
      congr 1
      field_simp
      ring
    rw [show (fun x => Real.sqrt (a ^ 2 - x * x))
        = fun x => a * Real.sqrt (1 - (a⁻¹ * x) ^ 2) from funext hkey]
    rw [intervalIntegral.integral_const_mul]
    have hc : a⁻¹ ≠ 0 := inv_ne_zero hne
    have hcomp := intervalIntegral.integral_comp_mul_left
      (fun u => Real.sqrt (1 - u ^ 2)) (a := -a) (b := a) hc
    rw [hcomp]
    rw [show a⁻¹ * -a = -1 by field_simp]
    rw [show a⁻¹ * a = 1 by field_simp]
    rw [integral_sqrt_one_sub_sq]
    rw [smul_eq_mul, inv_inv]
    ring

lemma quadF2_eval (R g : ℝ) (h : 0 ≤ 2 * R * g) :
    quadF2 R g = Real.pi * (2 * R * g) / 2 := by
  unfold quadF2
  have ha : (0:ℝ) ≤ xFrontEdge R g := Real.sqrt_nonneg _
  have ha2 : xFrontEdge R g ^ 2 = 2 * R * g := Real.sq_sqrt h
  rw [integral_semicircle _ ha, ha2]

lemma continuous_f1Integrand (A C : ℝ) (hC : 0 < C) :
    Continuous fun x : ℝ => Real.sqrt (A - x * x) / Real.sqrt (x * x + C) := by
  apply Continuous.div
  · exact Real.continuous_sqrt.comp (by continuity)
  · exact Real.continuous_sqrt.comp (by continuity)
  · intro x
    have hx : 0 < x * x + C := by nlinarith [mul_self_nonneg x]
    exact ne_of_gt (Real.sqrt_pos.2 hx)

lemma quadF1_le (R g y : ℝ) (h : 0 ≤ 2 * R * g) :
    quadF1 R g y ≤ Real.pi * (2 * R * g) / 2 / Real.sqrt (y * y + 1e-10) := by
  unfold quadF1
  have ha : (0:ℝ) ≤ xFrontEdge R g := Real.sqrt_nonneg _
  have ha2 : xFrontEdge R g ^ 2 = 2 * R * g := Real.sq_sqrt h
  set a := xFrontEdge R g with hadef
  have hC : (0:ℝ) < y * y + 1e-10 := by
    nlinarith [mul_self_nonneg y, show (0:ℝ) < 1e-10 by norm_num]
  have hCs : (0:ℝ) < Real.sqrt (y * y + 1e-10) := Real.sqrt_pos.2 hC
  have hcont1 : Continuous fun x : ℝ =>
      Real.sqrt (a ^ 2 - x * x) / Real.sqrt (x * x + y * y + 1e-10) := by
    have := continuous_f1Integrand (a ^ 2) (y * y + 1e-10) hC
    simpa [add_assoc] using this
  have hcont2 : Continuous fun x : ℝ =>
      Real.sqrt (a ^ 2 - x * x) / Real.sqrt (y * y + 1e-10) :=
    (Real.continuous_sqrt.comp (by continuity)).div_const _
  have hmono := intervalIntegral.integral_mono_on (μ := MeasureTheory.volume)
    (neg_le_self ha)
    (hcont1.intervalIntegrable _ _) (hcont2.intervalIntegrable _ _)
    (fun x _ => by
      apply div_le_div_of_nonneg_left (Real.sqrt_nonneg _) hCs
      apply Real.sqrt_le_sqrt
      have : 0 ≤ x * x := mul_self_nonneg x
      linarith)
  calc ∫ x in (-a)..a, Real.sqrt (a ^ 2 - x * x) / Real.sqrt (x * x + y * y + 1e-10)
      ≤ ∫ x in (-a)..a, Real.sqrt (a ^ 2 - x * x) / Real.sqrt (y * y + 1e-10) := hmono
    _ = (∫ x in (-a)..a, Real.sqrt (a ^ 2 - x * x)) / Real.sqrt (y * y + 1e-10) := by
        rw [intervalIntegral.integral_div]
    _ = Real.pi * (2 * R * g) / 2 / Real.sqrt (y * y + 1e-10) := by
        rw [integral_semicircle _ ha, ha2]

lemma quadF1_ge (R g y : ℝ) (h : 0 ≤ 2 * R * g) :
    Real.pi * (2 * R * g) / 2 / Real.sqrt (2 * R * g + y * y + 1e-10) ≤ quadF1 R g y := by
  unfold quadF1
  have ha : (0:ℝ) ≤ xFrontEdge R g := Real.sqrt_nonneg _
  have ha2 : xFrontEdge R g ^ 2 = 2 * R * g := Real.sq_sqrt h
  set a := xFrontEdge R g with hadef
  have hC : (0:ℝ) < y * y + 1e-10 := by
    nlinarith [mul_self_nonneg y, show (0:ℝ) < 1e-10 by norm_num]
  have hcont1 : Continuous fun x : ℝ =>
      Real.sqrt (a ^ 2 - x * x) / Real.sqrt (x * x + y * y + 1e-10) := by
    have := continuous_f1Integrand (a ^ 2) (y * y + 1e-10) hC
    simpa [add_assoc] using this
  have hcont2 : Continuous fun x : ℝ =>
      Real.sqrt (a ^ 2 - x * x) / Real.sqrt (a ^ 2 + y * y + 1e-10) :=
    (Real.continuous_sqrt.comp (by continuity)).div_const _
  have hmono := intervalIntegral.integral_mono_on (μ := MeasureTheory.volume)
    (neg_le_self ha)
    (hcont2.intervalIntegrable _ _) (hcont1.intervalIntegrable _ _)
    (fun x hx => by
      have hxx : x * x ≤ a ^ 2 := by
        rcases Set.mem_Icc.1 hx with ⟨h1, h2⟩
        have habs : |x| ≤ a := abs_le.2 ⟨by linarith, h2⟩
        calc x * x = |x| * |x| := (abs_mul_abs_self x).symm
          _ ≤ a * a := mul_le_mul habs habs (abs_nonneg x) ha
          _ = a ^ 2 := (sq a).symm
      apply div_le_div_of_nonneg_left (Real.sqrt_nonneg _)
      · apply Real.sqrt_pos.2
        nlinarith [mul_self_nonneg x]
      · apply Real.sqrt_le_sqrt
        linarith)
  calc Real.pi * (2 * R * g) / 2 / Real.sqrt (2 * R * g + y * y + 1e-10)
      = (∫ x in (-a)..a, Real.sqrt (a ^ 2 - x * x)) / Real.sqrt (a ^ 2 + y * y + 1e-10) := by
        rw [integral_semicircle _ ha, ha2]
    _ = ∫ x in (-a)..a, Real.sqrt (a ^ 2 - x * x) / Real.sqrt (a ^ 2 + y * y + 1e-10) := by
        rw [intervalIntegral.integral_div]
    _ ≤ ∫ x in (-a)..a, Real.sqrt (a ^ 2 - x * x) / Real.sqrt (x * x + y * y + 1e-10) := hmono

/-!
  A concrete configuration for the delta0-monotonicity question: a flat
  symmetric two-node wheel pressed on an identical rail.  The separation is
  identically zero, the interpenetration equals delta0 at both nodes, and the
  segmentation yields the single symmetric patch [0, 2).
-/

def wFlat : List (ℝ × ℝ) := [(-100, 0), (100, 0)]

lemma interpenetration_flat (d : ℝ) (hd : 0 < d) :
    interpenetration wFlat wFlat d = some [d, d] := by
  simp [interpenetration, separationOfProfiles, subBroadcast, wFlat, List.min?, hd]

lemma nonzeroRuns_flat (d : ℝ) (hd : 0 < d) :
    nonzeroRuns [d, d] = [(0, 2)] := by
  have h := nonzeroRuns_all_nonzero [d, d] (by simp)
    (by
      intro x hx
      rcases List.mem_cons.1 hx with rfl | hx
      · exact ne_of_gt hd
      · rcases List.mem_cons.1 hx with rfl | hx
        · exact ne_of_gt hd
        · simp at hx)
  simpa using h

lemma loadCancel (c S T k : ℝ) (hT : T ≠ 0) : c / S * T * k / T = c * k / S := by
  by_cases hS : S = 0
  · simp [hS]
  · field_simp
    ring

lemma patchPmax_flat (d : ℝ) (hd : 0 < d) :
    patchPmax [-100, 100] [d, d] 1 1 0 1 d (0, 2)
      = Real.pi / 2 * Real.sqrt (2 * d) / (quadF1 1 d (-100) + quadF1 1 d 100) := by
  have hg : (0:ℝ) ≤ 2 * 1 * d := by linarith
  have hv : quadF2 1 d = Real.pi * (2 * 1 * d) / 2 := quadF2_eval 1 d hg
  have hvpos : 0 < quadF2 1 d := by
    rw [hv]
    have hpi := Real.pi_pos
    nlinarith
  have hS1 : patchS1 [(-100:ℝ), 100] [d, d] 1 (0, 2)
      = quadF1 1 d (-100) + quadF1 1 d 100 := by
    unfold patchS1
    norm_num [List.range', List.getD]
  have hS2 : patchS2 [d, d] 1 (0, 2) = quadF2 1 d + quadF2 1 d := by
    unfold patchS2
    norm_num [List.range', List.getD]
  have hTne : quadF2 1 d + quadF2 1 d ≠ 0 := by nlinarith
  unfold patchPmax
  rw [hS1, hS2, loadCancel _ _ _ _ hTne]
  rw [show (2:ℝ) * 1 * d = 2 * d by ring]
  ring

lemma maxPressure_flat (d : ℝ) (hd : 0 < d) :
    maxPressure wFlat [d, d] 1 1 0 1 d
      = [Real.pi / 2 * Real.sqrt (2 * d) / (quadF1 1 d (-100) + quadF1 1 d 100)] := by
  unfold maxPressure
  rw [nonzeroRuns_flat d hd]
  rw [show wFlat.map Prod.fst = [(-100:ℝ), 100] from rfl]
  rw [List.map_cons, List.map_nil, patchPmax_flat d hd]

lemma quadF1_flat_ub (d y : ℝ) (hd : 0 < d) (hy : y * y = 10000) :
    quadF1 1 d y ≤ Real.pi * d / 100 := by
  have h1 := quadF1_le 1 d y (by linarith)
  rw [hy] at h1
  have h100 : (100:ℝ) ≤ Real.sqrt (10000 + 1e-10) := by
    rw [show (100:ℝ) = Real.sqrt (100 ^ 2) from (Real.sqrt_sq (by norm_num)).symm]
    apply Real.sqrt_le_sqrt
    norm_num
  have hnum : (0:ℝ) ≤ Real.pi * (2 * 1 * d) / 2 := by
    have := Real.pi_pos
    nlinarith
  calc quadF1 1 d y ≤ Real.pi * (2 * 1 * d) / 2 / Real.sqrt (10000 + 1e-10) := h1
    _ ≤ Real.pi * (2 * 1 * d) / 2 / 100 :=
        div_le_div_of_nonneg_left hnum (by norm_num) h100
    _ = Real.pi * d / 100 := by ring

lemma quadF1_flat_pos (d y : ℝ) (hd : 0 < d) (hy : y * y = 10000) :
    0 < quadF1 1 d y := by
  have h1 := quadF1_ge 1 d y (by linarith)
  have hpi := Real.pi_pos
  have hden : 0 < Real.sqrt (2 * 1 * d + y * y + 1e-10) := by
    apply Real.sqrt_pos.2
    nlinarith [show (0:ℝ) < 1e-10 by norm_num]
  have hnum : 0 < Real.pi * (2 * 1 * d) / 2 := by nlinarith
  calc (0:ℝ) < Real.pi * (2 * 1 * d) / 2 / Real.sqrt (2 * 1 * d + y * y + 1e-10) :=
        div_pos hnum hden
    _ ≤ quadF1 1 d y := h1

lemma quadF1_flat_lb_100 (y : ℝ) (hy : y * y = 10000) :
    100 * Real.pi / 101 ≤ quadF1 1 100 y := by
  have h1 := quadF1_ge 1 100 y (by norm_num)
  rw [hy] at h1
  have hpi := Real.pi_pos
  have h101 : Real.sqrt (2 * 1 * 100 + 10000 + 1e-10) ≤ 101 := by
    rw [show (101:ℝ) = Real.sqrt (101 ^ 2) from (Real.sqrt_sq (by norm_num)).symm]
    apply Real.sqrt_le_sqrt
    norm_num
  have hden : 0 < Real.sqrt (2 * 1 * 100 + 10000 + 1e-10) := by
    apply Real.sqrt_pos.2
    norm_num
  have hnum : (0:ℝ) ≤ Real.pi * (2 * 1 * 100) / 2 := by nlinarith
  calc (100:ℝ) * Real.pi / 101
      = Real.pi * (2 * 1 * 100) / 2 / 101 := by ring
    _ ≤ Real.pi * (2 * 1 * 100) / 2 / Real.sqrt (2 * 1 * 100 + 10000 + 1e-10) :=
        div_le_div_of_nonneg_left hnum hden h101
    _ ≤ quadF1 1 100 y := h1

lemma flat_pressure_drop :
    Real.pi / 2 * Real.sqrt (2 * 100) / (quadF1 1 100 (-100) + quadF1 1 100 100)
      < Real.pi / 2 * Real.sqrt (2 * 1) / (quadF1 1 1 (-100) + quadF1 1 1 100) := by
  have hpi := Real.pi_pos
  have hy1 : ((-100:ℝ)) * (-100) = 10000 := by norm_num
  have hy2 : ((100:ℝ)) * 100 = 10000 := by norm_num
  rw [show ((2:ℝ) * 100) = 200 by norm_num, show ((2:ℝ) * 1) = 2 by norm_num]
  set A := quadF1 1 1 (-100) + quadF1 1 1 100 with hA
  set B := quadF1 1 100 (-100) + quadF1 1 100 100 with hB
  have hApos : 0 < A := by
    have := quadF1_flat_pos 1 (-100) (by norm_num) hy1
    have := quadF1_flat_pos 1 100 (by norm_num) hy2
    rw [hA]; linarith
  have hAub : A ≤ Real.pi / 50 := by
    have h1 := quadF1_flat_ub 1 (-100) (by norm_num) hy1
    have h2 := quadF1_flat_ub 1 100 (by norm_num) hy2
    rw [hA]; linarith
  have hBlb : 200 * Real.pi / 101 ≤ B := by
    have h1 := quadF1_flat_lb_100 (-100) hy1
    have h2 := quadF1_flat_lb_100 100 hy2
    rw [hB]; linarith
  have hBpos : 0 < B := lt_of_lt_of_le (by positivity) hBlb
  -- lower bound for the pressure at delta0 = 1
  have hsqrt2 : (1:ℝ) ≤ Real.sqrt 2 := by
    rw [show ((1:ℝ)) = Real.sqrt 1 from Real.sqrt_one.symm]
    apply Real.sqrt_le_sqrt
    norm_num
  have hp1 : (25:ℝ) ≤ Real.pi / 2 * Real.sqrt 2 / A := by
    have hnum : (0:ℝ) ≤ Real.pi / 2 * Real.sqrt 2 := by positivity
    have hstep : Real.pi / 2 * Real.sqrt 2 / (Real.pi / 50)
        ≤ Real.pi / 2 * Real.sqrt 2 / A :=
      div_le_div_of_nonneg_left hnum hApos hAub
    have hval : Real.pi / 2 * Real.sqrt 2 / (Real.pi / 50) = 25 * Real.sqrt 2 := by
      field_simp
      ring
    calc (25:ℝ) ≤ 25 * Real.sqrt 2 := by linarith
      _ = Real.pi / 2 * Real.sqrt 2 / (Real.pi / 50) := hval.symm
      _ ≤ Real.pi / 2 * Real.sqrt 2 / A := hstep
  -- upper bound for the pressure at delta0 = 100
  have hsqrt200 : Real.sqrt 200 ≤ 15 := by
    rw [show ((15:ℝ)) = Real.sqrt (15 ^ 2) from (Real.sqrt_sq (by norm_num)).symm]
    apply Real.sqrt_le_sqrt
    norm_num
  have hp100 : Real.pi / 2 * Real.sqrt 200 / B ≤ 1515 / 400 := by
    have hnum : (0:ℝ) ≤ Real.pi / 2 * Real.sqrt 200 := by positivity
    have hstep : Real.pi / 2 * Real.sqrt 200 / B
        ≤ Real.pi / 2 * Real.sqrt 200 / (200 * Real.pi / 101) :=
      div_le_div_of_nonneg_left hnum (by positivity) hBlb
    have hval : Real.pi / 2 * Real.sqrt 200 / (200 * Real.pi / 101)
        = 101 * Real.sqrt 200 / 400 := by
      field_simp
      ring
    have hfin : 101 * Real.sqrt 200 / 400 ≤ 1515 / 400 := by linarith
    calc Real.pi / 2 * Real.sqrt 200 / B
        ≤ Real.pi / 2 * Real.sqrt 200 / (200 * Real.pi / 101) := hstep
      _ = 101 * Real.sqrt 200 / 400 := hval
      _ ≤ 1515 / 400 := hfin
  calc Real.pi / 2 * Real.sqrt 200 / B ≤ 1515 / 400 := hp100
    _ < 25 := by norm_num
    _ ≤ Real.pi / 2 * Real.sqrt 2 / A := hp1

end Pressure

section Claims

/-- Indices covered by `nonzeroRuns` are exactly those carrying a strictly
positive entry, provided the input is elementwise nonnegative. -/
lemma nonzeroRuns_cover_pos (a : List ℚ) (ha : ∀ x ∈ a, 0 ≤ x) (i : ℕ) :
    (∃ r ∈ nonzeroRuns a, r.1 ≤ i ∧ i < r.2) ↔ 0 < a.getD i 0 := by
  rw [nonzeroRuns_cover a i]
  constructor
  · intro hne0
    by_cases hi : i < a.length
    · have hmem : a.getD i 0 ∈ a := by
        rw [List.getD_eq_getElem a 0 hi]
        exact List.getElem_mem hi
      exact lt_of_le_of_ne (ha _ hmem) (Ne.symm hne0)
    · rw [List.getD_eq_default _ _ (le_of_not_lt hi)] at hne0
      exact absurd rfl hne0
  · exact fun h => ne_of_gt h

/-- Claim C2: on an array of nonnegative scalars, `nonzeroRuns` returns the
ordered list of maximal half-open index ranges on which every element is
strictly positive: ranges are in bounds and nonempty, pairwise disjoint and
ordered by increasing start, and they cover exactly the strictly positive
indices; on `[0,0,1,1,0,1,0,0]` the result is `[[2,4],[5,6]]`, on an all-zero
array it is empty, and on a nonempty all-positive array it is `[[0,n)]`. -/
theorem C2_nonzeroRuns_spec (a : List ℚ) (ha : ∀ x ∈ a, 0 ≤ x) :
    (∀ r ∈ nonzeroRuns a, r.1 < r.2 ∧ r.2 ≤ a.length) ∧
    List.Chain' (fun r s : ℕ × ℕ => r.2 < s.1) (nonzeroRuns a) ∧
    (∀ i : ℕ, (∃ r ∈ nonzeroRuns a, r.1 ≤ i ∧ i < r.2) ↔ 0 < a.getD i 0) ∧
    (a = [0, 0, 1, 1, 0, 1, 0, 0] → nonzeroRuns a = [(2, 4), (5, 6)]) ∧
    ((∀ x ∈ a, x = 0) → nonzeroRuns a = []) ∧
    (a ≠ [] → (∀ x ∈ a, 0 < x) → nonzeroRuns a = [(0, a.length)]) := by
  refine ⟨nonzeroRuns_bounds a, nonzeroRuns_chain a, nonzeroRuns_cover_pos a ha,
    ?_, nonzeroRuns_all_zero a, ?_⟩
  · intro h
    subst h
    decide
  · intro hne hpos
    exact nonzeroRuns_all_nonzero a hne (fun x hx => ne_of_gt (hpos x hx))

/-- Witness for C2 at the specification's own example input. -/
theorem C2_nonzeroRuns_spec_witness :
    (∀ x ∈ ([0, 0, 1, 1, 0, 1, 0, 0] : List ℚ), 0 ≤ x) ∧
    nonzeroRuns ([0, 0, 1, 1, 0, 1, 0, 0] : List ℚ) = [(2, 4), (5, 6)] :=
  ⟨by decide, (C2_nonzeroRuns_spec [0, 0, 1, 1, 0, 1, 0, 0] (by decide)).2.2.2.1 rfl⟩

/-- Claim C10: on an arbitrary input array, `nonzeroRuns` returns the maximal
runs of nonzero entries: negative entries count as inside a run, and the
positive-run reading of C2 coincides with this exactly when the array is
elementwise nonnegative; `[0,-1,1,0]` yields the single run `[1,3)`. -/
theorem C10_nonzeroRuns_nonzero (a : List ℚ) :
    (∀ r ∈ nonzeroRuns a, r.1 < r.2 ∧ r.2 ≤ a.length) ∧
    List.Chain' (fun r s : ℕ × ℕ => r.2 < s.1) (nonzeroRuns a) ∧
    (∀ i : ℕ, (∃ r ∈ nonzeroRuns a, r.1 ≤ i ∧ i < r.2) ↔ a.getD i 0 ≠ 0) ∧
    ((∀ x ∈ a, 0 ≤ x) →
      ∀ i : ℕ, (∃ r ∈ nonzeroRuns a, r.1 ≤ i ∧ i < r.2) ↔ 0 < a.getD i 0) ∧
    (a = [0, -1, 1, 0] → nonzeroRuns a = [(1, 3)]) := by
  refine ⟨nonzeroRuns_bounds a, nonzeroRuns_chain a, nonzeroRuns_cover a,
    fun ha => nonzeroRuns_cover_pos a ha, ?_⟩
  intro h
  subst h
  decide

/-- Witness for C10 at an input with a negative entry. -/
theorem C10_nonzeroRuns_nonzero_witness :
    nonzeroRuns ([0, -1, 1, 0] : List ℚ) = [(1, 3)] :=
  (C10_nonzeroRuns_nonzero [0, -1, 1, 0]).2.2.2.2 rfl

lemma getD_map_lt {β γ : Type*} (f : β → γ) (l : List β) (i : ℕ) (h : i < l.length)
    (d : β) (d' : γ) : (l.map f).getD i d' = f (l.getD i d) := by
  rw [List.getD_eq_getElem _ _ (by simpa using h), List.getElem_map,
    List.getD_eq_getElem _ _ h]

/-- Claim C3 counterexample: on the empty (trivially aligned, equal-length)
profile pair the code raises on `min()` of the empty separation instead of
returning the length-0 interpenetration array the claim promises. -/
theorem C3_counterexample :
    interpenetration ([] : List (ℚ × ℚ)) ([] : List (ℚ × ℚ)) 1 = none := by
  norm_num [interpenetration, separationOfProfiles, subBroadcast, List.min?]

/-- Claim C3 (amended to nonempty aligned profiles): `interpenetration`
returns an array of the grid's length with `g[i] = max 0 (delta0 - sep[i])`,
elementwise nonnegative, and exactly zero wherever `sep[i] >= delta0`. -/
theorem C3_interpenetration (wheel rail : List (ℚ × ℚ)) (delta0 : ℚ)
    (hlen : wheel.length = rail.length) (hne : wheel ≠ []) :
    ∃ sep g, separationOfProfiles wheel rail = some sep ∧
      interpenetration wheel rail delta0 = some g ∧
      g.length = wheel.length ∧
      (∀ i, i < g.length → g.getD i 0 = max 0 (delta0 - sep.getD i 0)) ∧
      (∀ x ∈ g, 0 ≤ x) ∧
      (∀ i, i < g.length → delta0 ≤ sep.getD i 0 → g.getD i 0 = 0) := by
  obtain ⟨m, hm, hsep⟩ := separation_eq wheel rail hlen hne
  set raw := List.zipWith (fun w r : ℚ × ℚ => w.2 - r.2) wheel rail with hraw
  set sep := raw.map (fun s => s - m) with hsepdef
  set g := sep.map (fun s => if delta0 - s > 0 then delta0 - s else 0) with hgdef
  have hint : interpenetration wheel rail delta0 = some g := by
    rw [interpenetration, hsep]
  have hseplen : sep.length = wheel.length := by
    rw [hsepdef]
    simp [hraw, List.length_zipWith, hlen]
  have hglen : g.length = wheel.length := by
    rw [hgdef, List.length_map, hseplen]
  refine ⟨sep, g, hsep, hint, hglen, ?_, ?_, ?_⟩
  · intro i hi
    have his : i < sep.length := by rw [hseplen, ← hglen]; exact hi
    rw [hgdef, getD_map_lt _ _ i his 0 0]
    by_cases hpos : delta0 - sep.getD i 0 > 0
    · rw [if_pos hpos, max_eq_right (le_of_lt hpos)]
    · rw [if_neg hpos, max_eq_left (le_of_not_lt hpos)]
  · intro x hx
    rw [hgdef] at hx
    rcases List.mem_map.1 hx with ⟨s, _, rfl⟩
    by_cases hpos : delta0 - s > 0
    · rw [if_pos hpos]
      exact le_of_lt hpos
    · rw [if_neg hpos]
  · intro i hi hle
    have his : i < sep.length := by rw [hseplen, ← hglen]; exact hi
    rw [hgdef, getD_map_lt _ _ i his 0 0, if_neg (not_lt.2 (by linarith))]

/-- Witness for C3 on a concrete aligned nonempty pair. -/
theorem C3_interpenetration_witness :
    (([((0:ℚ), 3), (1, 4)] : List (ℚ × ℚ)).length
        = ([((0:ℚ), 0), (1, 2)] : List (ℚ × ℚ)).length
      ∧ ([((0:ℚ), 3), (1, 4)] : List (ℚ × ℚ)) ≠ []) ∧
    (∃ sep g, separationOfProfiles [((0:ℚ), 3), (1, 4)] [((0:ℚ), 0), (1, 2)] = some sep ∧
      interpenetration [((0:ℚ), 3), (1, 4)] [((0:ℚ), 0), (1, 2)] 1 = some g ∧
      g.length = ([((0:ℚ), 3), (1, 4)] : List (ℚ × ℚ)).length ∧
      (∀ i, i < g.length → g.getD i 0 = max 0 (1 - sep.getD i 0)) ∧
      (∀ x ∈ g, 0 ≤ x) ∧
      (∀ i, i < g.length → 1 ≤ sep.getD i 0 → g.getD i 0 = 0)) :=
  ⟨⟨rfl, by simp⟩,
    C3_interpenetration [((0:ℚ), 3), (1, 4)] [((0:ℚ), 0), (1, 2)] 1 rfl (by simp)⟩

/-- Claim C4 counterexample: on the empty equal-length pair the code raises
on `min()` of the empty sequence instead of returning a normalized array. -/
theorem C4_counterexample :
    separationOfProfiles ([] : List (ℚ × ℚ)) ([] : List (ℚ × ℚ)) = none := by
  norm_num [separationOfProfiles, subBroadcast, List.min?]

/-- Claim C4 (amended to nonempty equal-length profiles):
`separationOfProfiles` returns `sep[i] = top.z[i] - bottom.z[i]` with
`min(sep)` subtracted, so the output minimum is exactly 0 and every entry is
nonnegative; apparent overlap is re-centered, not rejected. -/
theorem C4_separation (wheel rail : List (ℚ × ℚ))
    (hlen : wheel.length = rail.length) (hne : wheel ≠ []) :
    ∃ sep m,
      (List.zipWith (fun w r : ℚ × ℚ => w.2 - r.2) wheel rail).min? = some m ∧
      separationOfProfiles wheel rail = some sep ∧
      sep = (List.zipWith (fun w r : ℚ × ℚ => w.2 - r.2) wheel rail).map
        (fun s => s - m) ∧
      sep.min? = some 0 ∧
      (∀ x ∈ sep, 0 ≤ x) := by
  obtain ⟨m, hm, hsep⟩ := separation_eq wheel rail hlen hne
  refine ⟨_, m, hm, hsep, rfl, ?_, ?_⟩
  · rw [min?_map_sub, hm, Option.map_some']
    simp
  · intro x hx
    rcases List.mem_map.1 hx with ⟨s, hs, rfl⟩
    have := min?_le_mem _ m hm hs
    linarith

/-- Witness for C4 on a concrete overlapping (negative raw separation) pair. -/
theorem C4_separation_witness :
    (([((0:ℚ), 0), (1, 1)] : List (ℚ × ℚ)).length
        = ([((0:ℚ), 2), (1, 1)] : List (ℚ × ℚ)).length
      ∧ ([((0:ℚ), 0), (1, 1)] : List (ℚ × ℚ)) ≠ []) ∧
    (∃ sep m,
      (List.zipWith (fun w r : ℚ × ℚ => w.2 - r.2)
        [((0:ℚ), 0), (1, 1)] [((0:ℚ), 2), (1, 1)]).min? = some m ∧
      separationOfProfiles [((0:ℚ), 0), (1, 1)] [((0:ℚ), 2), (1, 1)] = some sep ∧
      sep = (List.zipWith (fun w r : ℚ × ℚ => w.2 - r.2)
        [((0:ℚ), 0), (1, 1)] [((0:ℚ), 2), (1, 1)]).map (fun s => s - m) ∧
      sep.min? = some 0 ∧
      (∀ x ∈ sep, 0 ≤ x)) :=
  ⟨⟨rfl, by simp⟩,
    C4_separation [((0:ℚ), 0), (1, 1)] [((0:ℚ), 2), (1, 1)] rfl (by simp)⟩

/-- Claim C7 counterexample: a length-1 wheel against a length-2 rail has
mismatched lengths, yet numpy broadcasting makes the subtraction succeed and
the code returns a separation array instead of failing. -/
theorem C7_counterexample :
    ([((0:ℚ), 0)] : List (ℚ × ℚ)).length
        ≠ ([((0:ℚ), 0), (1, 1)] : List (ℚ × ℚ)).length ∧
    separationOfProfiles [((0:ℚ), 0)] [((0:ℚ), 0), (1, 1)] = some [1, 0] := by
  constructor
  · decide
  · norm_num [separationOfProfiles, subBroadcast, List.min?, min_def]

/-- Claim C7 (amended): `separationOfProfiles` fails on profiles of unequal
length unless one of them has length one, in which case numpy broadcasting
applies. -/
theorem C7_length_mismatch (wheel rail : List (ℚ × ℚ))
    (h : wheel.length ≠ rail.length) (h1 : wheel.length ≠ 1) (h2 : rail.length ≠ 1) :
    separationOfProfiles wheel rail = none := by
  have hsub : subBroadcast (wheel.map Prod.snd) (rail.map Prod.snd) = none := by
    rw [subBroadcast, if_neg (by simpa using h), if_neg (by simpa using h1),
      if_neg (by simpa using h2)]
  rw [separationOfProfiles, hsub]

/-- Witness for C7 on a length-2 wheel against a length-3 rail. -/
theorem C7_length_mismatch_witness :
    (([((0:ℚ), 0), (1, 1)] : List (ℚ × ℚ)).length
        ≠ ([((0:ℚ), 0), (1, 1), (2, 2)] : List (ℚ × ℚ)).length
      ∧ ([((0:ℚ), 0), (1, 1)] : List (ℚ × ℚ)).length ≠ 1
      ∧ ([((0:ℚ), 0), (1, 1), (2, 2)] : List (ℚ × ℚ)).length ≠ 1) ∧
    separationOfProfiles [((0:ℚ), 0), (1, 1)] [((0:ℚ), 0), (1, 1), (2, 2)] = none :=
  ⟨⟨by decide, by decide, by decide⟩,
    C7_length_mismatch _ _ (by decide) (by decide) (by decide)⟩

/-- Claim C8 counterexample: a source profile with non-monotonic
(not strictly increasing) y coordinates is silently sorted by the
interpolator and the alignment succeeds instead of failing. -/
theorem C8_counterexample :
    ¬ List.Pairwise (fun p q : ℚ × ℚ => p.1 < q.1) [((0:ℚ), 0), (2, 2), (1, 1)] ∧
    equalPoints [((0:ℚ), 0), (2, 2), (1, 1)] [((1:ℚ), 5)] = some [(1, 1)] := by
  constructor
  · decide
  · norm_num [equalPoints, sortByFst, insertByFst, evalSeg, List.min?, List.max?,
      min_def, max_def]

/-- Claim C8 (amended): alignment fails exactly when the source has fewer
than two points or some reference y coordinate lies outside the source's
y range (non-monotonic y is sorted, not rejected); on success the output
carries the reference y coordinates and has the reference length. -/
theorem C8_equalPoints (p1 p2 : List (ℚ × ℚ)) :
    ((equalPoints p1 p2).isSome = true ↔
      (2 ≤ p1.length ∧ ∀ q ∈ p2,
        (p1.map Prod.fst).min?.getD 0 ≤ q.1 ∧ q.1 ≤ (p1.map Prod.fst).max?.getD 0)) ∧
    (∀ out, equalPoints p1 p2 = some out →
      out.length = p2.length ∧ out.map Prod.fst = p2.map Prod.fst) := by
  constructor
  · rw [equalPoints]
    by_cases hl : p1.length < 2
    · rw [if_pos hl]
      simp only [Option.isSome_none, Bool.false_eq_true, false_iff]
      rintro ⟨h2, -⟩
      omega
    · rw [if_neg hl]
      by_cases hall : p2.all (fun q =>
          decide ((p1.map Prod.fst).min?.getD 0 ≤ q.1) &&
          decide (q.1 ≤ (p1.map Prod.fst).max?.getD 0)) = true
      · rw [if_pos hall]
        simp only [Option.isSome_some, true_iff]
        refine ⟨by omega, ?_⟩
        intro q hq
        have h := List.all_eq_true.1 hall q hq
        simpa using h
      · rw [if_neg hall]
        simp only [Option.isSome_none, Bool.false_eq_true, false_iff]
        rintro ⟨-, hcov⟩
        apply hall
        apply List.all_eq_true.2
        intro q hq
        simpa using hcov q hq
  · intro out hout
    rw [equalPoints] at hout
    by_cases hl : p1.length < 2
    · rw [if_pos hl] at hout
      exact absurd hout (by simp)
    · rw [if_neg hl] at hout
      by_cases hall : p2.all (fun q =>
          decide ((p1.map Prod.fst).min?.getD 0 ≤ q.1) &&
          decide (q.1 ≤ (p1.map Prod.fst).max?.getD 0)) = true
      · rw [if_pos hall] at hout
        have hout' := Option.some.inj hout
        subst hout'
        constructor
        · rw [List.length_map]
        · rw [List.map_map]
          rfl
      · rw [if_neg hall] at hout
        exact absurd hout (by simp)

/-- Witness for C8: a concrete successful alignment. -/
theorem C8_equalPoints_witness :
    ([((1:ℚ), 1)] : List (ℚ × ℚ)).length = ([((1:ℚ), 9)] : List (ℚ × ℚ)).length ∧
    ([((1:ℚ), 1)] : List (ℚ × ℚ)).map Prod.fst
      = ([((1:ℚ), 9)] : List (ℚ × ℚ)).map Prod.fst :=
  (C8_equalPoints [((0:ℚ), 0), (2, 2)] [((1:ℚ), 9)]).2 [((1:ℚ), 1)]
    (by norm_num [equalPoints, sortByFst, insertByFst, evalSeg, List.min?, List.max?,
      min_def, max_def])

/-- Claim C6: an all-zero interpenetration array yields zero contact patches
and an empty pressure array, with no failure. -/
theorem C6_no_contact (wheel : List (ℝ × ℝ)) (g : List ℝ) (R E nu delta delta0 : ℝ)
    (hg : ∀ x ∈ g, x = 0) :
    nonzeroRuns g = [] ∧ maxPressure wheel g R E nu delta delta0 = [] := by
  have h := nonzeroRuns_all_zero g hg
  exact ⟨h, by rw [maxPressure, h]; rfl⟩

/-- Witness for C6 on the all-zero two-node array. -/
theorem C6_no_contact_witness :
    (∀ x ∈ ([0, 0] : List ℝ), x = 0) ∧
    (nonzeroRuns ([0, 0] : List ℝ) = [] ∧
      maxPressure [((0:ℝ), 0), (1, 1)] [0, 0] 1 1 0 1 1 = []) := by
  have hz : ∀ x ∈ ([0, 0] : List ℝ), x = 0 := by
    intro x hx
    rcases List.mem_cons.1 hx with rfl | hx
    · rfl
    · rcases List.mem_cons.1 hx with rfl | hx
      · rfl
      · simp at hx
  exact ⟨hz, C6_no_contact [((0:ℝ), 0), (1, 1)] [0, 0] 1 1 0 1 1 hz⟩

/-- Claim C1: `maxPressure` returns exactly one peak pressure per contact
patch of the interpenetration array, in increasing patch-start order, and
each value equals the specification's formula
`pmax = load * sqrt(2 R delta0) / S2`, `load = coef * S2 / S1`,
`coef = 0.5 pi E delta / (1 - nu^2)`, where S1 and S2 sum the two definite
integrals `I1`, `I2` over the patch nodes with `a(i) = sqrt(2 R g(i))`. -/
theorem C1_maxPressure_formula (wheel : List (ℝ × ℝ)) (g : List ℝ)
    (R E nu delta delta0 : ℝ) :
    (maxPressure wheel g R E nu delta delta0).length = (nonzeroRuns g).length ∧
    List.Chain' (fun r s : ℕ × ℕ => r.1 < s.1) (nonzeroRuns g) ∧
    maxPressure wheel g R E nu delta delta0
      = (nonzeroRuns g).map (specPmax wheel g R E nu delta delta0) := by
  refine ⟨by rw [maxPressure, List.length_map], nonzeroRuns_chain_starts g, ?_⟩
  rw [maxPressure]
  exact List.map_congr_left
    (fun r _ => patchPmax_eq_specPmax wheel g R E nu delta delta0 r)

/-- Claim C9 counterexample: in the flat symmetric two-node configuration,
which produces a single symmetric contact patch at either value of the
virtual penetration, raising delta0 from 1 to 100 with R, E, nu, delta fixed
strictly decreases the computed peak pressure. -/
theorem C9_counterexample :
    interpenetration wFlat wFlat (1:ℝ) = some [1, 1] ∧
    interpenetration wFlat wFlat (100:ℝ) = some [100, 100] ∧
    nonzeroRuns ([(1:ℝ), 1]) = [(0, 2)] ∧
    nonzeroRuns ([(100:ℝ), 100]) = [(0, 2)] ∧
    (maxPressure wFlat [100, 100] 1 1 0 1 100).headD 0
      < (maxPressure wFlat [1, 1] 1 1 0 1 1).headD 0 := by
  refine ⟨interpenetration_flat 1 one_pos, interpenetration_flat 100 (by norm_num),
    nonzeroRuns_flat 1 one_pos, nonzeroRuns_flat 100 (by norm_num), ?_⟩
  rw [maxPressure_flat 1 one_pos, maxPressure_flat 100 (by norm_num)]
  simpa using flat_pressure_drop

/-- Claim C9 (amended): S2 cancels out of the peak-pressure formula, so the
per-patch pressure equals `coef * sqrt(2 R delta0) / S1`; both the numerator
and S1 grow with delta0, and the ratio is not monotone (the counterexample
exhibits a strict decrease). -/
theorem C9_S2_cancellation (yArr gArr : List ℝ) (R E nu delta delta0 : ℝ)
    (r : ℕ × ℕ) (hS2 : patchS2 gArr R r ≠ 0) :
    patchPmax yArr gArr R E nu delta delta0 r
      = 0.5 * Real.pi * E * delta / (1 - nu * nu)
          * Real.sqrt (2 * R * delta0) / patchS1 yArr gArr R r := by
  rw [patchPmax]
  exact loadCancel _ _ _ _ hS2

/-- Witness for C9's amended theorem at the concrete flat configuration. -/
theorem C9_S2_cancellation_witness :
    patchS2 [(1:ℝ), 1] 1 (0, 2) ≠ 0 ∧
    patchPmax [(-100:ℝ), 100] [1, 1] 1 1 0 1 1 (0, 2)
      = 0.5 * Real.pi * 1 * 1 / (1 - 0 * 0) * Real.sqrt (2 * 1 * 1)
          / patchS1 [(-100:ℝ), 100] [1, 1] 1 (0, 2) := by
  have hv : quadF2 1 1 = Real.pi * (2 * 1 * 1) / 2 := quadF2_eval 1 1 (by norm_num)
  have hS2eq : patchS2 [(1:ℝ), 1] 1 (0, 2) = quadF2 1 1 + quadF2 1 1 := by
    rw [patchS2]
    norm_num [List.range', List.getD]
  have hS2ne : patchS2 [(1:ℝ), 1] 1 (0, 2) ≠ 0 := by
    rw [hS2eq, hv]
    have := Real.pi_pos
    nlinarith
  exact ⟨hS2ne, C9_S2_cancellation [(-100:ℝ), 100] [1, 1] 1 1 0 1 1 (0, 2) hS2ne⟩

end Claims

end PKModel
